import Mathlib

/-!
# Verification of the im2code message-routing and idle-detection core

A shallow embedding, in Lean 4, of the im2code bridge between instant-messaging
platforms and tmux sessions.  Each definition is translated from a Go source
function of the repository (the Go name is kept where Lean allows it); the
theorems check the natural-language specification's claims against these
definitions.

Modelled components:
* the Subscription Store (`internal/state`, `Subscriptions`),
  including the exact JSON file format written by `save` (Go
  `json.MarshalIndent` on a `map[string]string`: keys sorted, two-space
  indentation, Go's string escaping incl. HTML escaping) and the parser used
  by `load`;
* the Session Router (`internal/router`, the revision with activation
  gating), with the tmux bridge and the `onActivate` hook abstracted as
  oracles and all side effects reified in an `Effect` list;
* the Idle Detector (`internal/tmux/idle.go`, the dual-ticker revision of
  `Run`), as a step function over capture events carrying explicit clock
  readings in nanoseconds;
* the Watch Supervisor's reconciliation loop (`watchSubscriptions` in
  `cmd/im2code`);
* the interval parsing/clamping of `runStart` (`parseClamped`).

OS and stdlib boundaries (file writes, `time.ParseDuration`, compiled
regexps, channel sends) are modelled as explicit oracle inputs.
-/

/-! ## Association-list maps

Go `map[string]string` state is embedded as an association list; Go's
read-miss default is `Option.none` (or a caller-supplied default).  `setA`
replaces an existing entry in place or appends; `delA` removes the entry. -/

/-- Lookup in an association list (`m[k]` with the `ok` flag as `Option`). -/
def lookupA (l : List (String × String)) (k : String) : Option String :=
  match l with
  | [] => none
  | kv :: rest => if kv.1 = k then some kv.2 else lookupA rest k

/-- Lookup with a default value (Go map read of a missing key). -/
def lookupD (l : List (String × String)) (k : String) (dflt : String) : String :=
  (lookupA l k).getD dflt

/-- Go `m[k] = v`: replace the entry for `k` if present, else append. -/
def setA (l : List (String × String)) (k v : String) : List (String × String) :=
  match l with
  | [] => [(k, v)]
  | kv :: rest => if kv.1 = k then (k, v) :: rest else kv :: setA rest k v

/-- Go `delete(m, k)`. -/
def delA (l : List (String × String)) (k : String) : List (String × String) :=
  match l with
  | [] => []
  | kv :: rest => if kv.1 = k then delA rest k else kv :: delA rest k

/-- Go map lookup of a `map[string]bool` (missing key reads `false`). -/
def lookupB (l : List (String × Bool)) (k : String) : Bool :=
  match l with
  | [] => false
  | kv :: rest => if kv.1 = k then kv.2 else lookupB rest k

/-- Go `m[k] = b` for a `map[string]bool`. -/
def setB (l : List (String × Bool)) (k : String) (b : Bool) : List (String × Bool) :=
  match l with
  | [] => [(k, b)]
  | kv :: rest => if kv.1 = k then (k, b) :: rest else kv :: setB rest k b

/-! ## The Subscription Store (`internal/state/subscriptions.go`)

`Subscriptions` maps `"channel:chatID"` to a tmux session name.  The Go
struct holds the map and a file *path*; here `file` holds the current
*content* of that on-disk file (`none` = the file does not exist).  Every
mutation calls `save`, which marshals the whole map and calls
`os.WriteFile`, discarding both errors; the `wk` flag is the oracle for
whether that write succeeds. -/

structure Subscriptions where
  data : List (String × String)
  file : Option String
deriving Repr, DecidableEq

/-- `encodeSubs` (below) is built over `List Char`; this section defines Go's
`encoding/json` string escaping with `escapeHTML = true`, as used by
`json.MarshalIndent`: `"` `\` `\n` `\r` `\t` get two-character escapes; other
control characters and `<` `>` `&` become `\u00XX` (lowercase hex); U+2028
and U+2029 become ` `/` `; everything else is emitted verbatim. -/
def toHexDigit (n : Nat) : Char :=
  if n < 10 then Char.ofNat ('0'.toNat + n) else Char.ofNat ('a'.toNat + (n - 10))

/-- One character of a JSON string, escaped as Go's encoder emits it. -/
def escapeChar (c : Char) : List Char :=
  if c = '"' then ['\\', '"']
  else if c = '\\' then ['\\', '\\']
  else if c = '\n' then ['\\', 'n']
  else if c = '\r' then ['\\', 'r']
  else if c = '\t' then ['\\', 't']
  else if c.toNat < 0x20 ∨ c = '<' ∨ c = '>' ∨ c = '&' then
    ['\\', 'u', '0', '0', toHexDigit (c.toNat / 16), toHexDigit (c.toNat % 16)]
  else if c.toNat = 0x2028 then ['\\', 'u', '2', '0', '2', '8']
  else if c.toNat = 0x2029 then ['\\', 'u', '2', '0', '2', '9']
  else [c]

/-- A JSON string literal: quote, escaped characters, quote. -/
def encStr (s : String) : List Char :=
  '"' :: (s.data.flatMap escapeChar ++ ['"'])

/-- One member line of `json.MarshalIndent(m, "", "  ")`: two-space indent,
quoted key, `: `, quoted value. -/
def encPair (kv : String × String) : List Char :=
  ' ' :: ' ' :: (encStr kv.1 ++ ':' :: ' ' :: encStr kv.2)

/-- The member lines, separated by `,\n`. -/
def encMembers : List (String × String) → List Char
  | [] => []
  | [kv] => encPair kv
  | kv :: rest => encPair kv ++ ',' :: '\n' :: encMembers rest

/-- Code-point lexicographic order on character lists (UTF-8 byte order on
valid strings, the order `encoding/json` sorts map keys in). -/
def charsLe : List Char → List Char → Bool
  | [], _ => true
  | _ :: _, [] => false
  | c :: cs, d :: ds =>
    if c.toNat < d.toNat then true
    else if d.toNat < c.toNat then false
    else charsLe cs ds

def strLe (a b : String) : Bool :=
  charsLe a.data b.data

/-- Go's `encoding/json` marshals a map with its keys sorted (byte-wise
lexicographic on UTF-8, i.e. code-point order). -/
def sortPairs (l : List (String × String)) : List (String × String) :=
  List.insertionSort (fun a b => strLe a.1 b.1 = true) l

/-- `json.MarshalIndent(m, "", "  ")` for a `map[string]string`: `{}` when
empty, else an opening brace, the indented member lines, and a closing brace
on its own line. -/
def encodeSubsL (l : List (String × String)) : List Char :=
  match sortPairs l with
  | [] => ['{', '}']
  | kv :: rest => '{' :: '\n' :: (encMembers (kv :: rest) ++ ['\n', '}'])

def encodeSubs (l : List (String × String)) : String :=
  String.mk (encodeSubsL l)

/-- `Subscriptions.save`: marshal the map and write the file, ignoring the
marshal error and the `os.WriteFile` error.  `wk` is the write-success
oracle: on failure the on-disk content is simply left as it was. -/
def Subscriptions.save (wk : Bool) (s : Subscriptions) : Subscriptions :=
  if wk then { s with file := some (encodeSubs s.data) } else s

/-- `Subscriptions.Get`: the `(value, ok)` pair as an `Option`. -/
def Subscriptions.Get (s : Subscriptions) (key : String) : Option String :=
  lookupA s.data key

/-- `Subscriptions.Set`: mutate the map, then `save`. -/
def Subscriptions.Set (wk : Bool) (s : Subscriptions) (key session : String) :
    Subscriptions :=
  Subscriptions.save wk { s with data := setA s.data key session }

/-- `Subscriptions.Delete`: remove the key, then `save`. -/
def Subscriptions.Delete (wk : Bool) (s : Subscriptions) (key : String) :
    Subscriptions :=
  Subscriptions.save wk { s with data := delA s.data key }

/-- `Subscriptions.All`: a copy of the map. -/
def Subscriptions.All (s : Subscriptions) : List (String × String) :=
  s.data

/-! ### The JSON parser used by `Subscriptions.load`

`load` calls `json.Unmarshal(data, &s.data)` on the file content.  The
subset relevant to this store is an object of string members; the parser
below follows the JSON grammar as Go's decoder reads it (whitespace,
string escapes including `\uXXXX` with surrogate pairs, unescaped control
characters rejected, only trailing whitespace after the value).  A
duplicate key overwrites the earlier one, as unmarshalling into a map
does. -/

/-- JSON insignificant whitespace. -/
def jsonWs (c : Char) : Bool :=
  c = ' ' || c = '\t' || c = '\n' || c = '\r'

def skipWs : List Char → List Char
  | [] => []
  | c :: cs => if jsonWs c then skipWs cs else c :: cs

/-- The value of one hex digit. -/
def hexVal (c : Char) : Option Nat :=
  if '0' ≤ c ∧ c ≤ '9' then some (c.toNat - '0'.toNat)
  else if 'a' ≤ c ∧ c ≤ 'f' then some (c.toNat - 'a'.toNat + 10)
  else if 'A' ≤ c ∧ c ≤ 'F' then some (c.toNat - 'A'.toNat + 10)
  else none

/-- The two-character JSON escapes. -/
def unescapeChar : Char → Option Char
  | '"' => some '"'
  | '\\' => some '\\'
  | '/' => some '/'
  | 'b' => some (Char.ofNat 8)
  | 'f' => some (Char.ofNat 12)
  | 'n' => some '\n'
  | 'r' => some '\r'
  | 't' => some '\t'
  | _ => none

/-- The body of a JSON string after the opening quote.  Returns the decoded
characters and the input remaining after the closing quote.  `\uXXXX`
escapes combine surrogate pairs; a lone surrogate decodes to U+FFFD, as in
Go.  An unescaped control character is a syntax error.  The fuel argument
is only a termination device: every step consumes at least one input
character, so callers pass the input length plus one and the fuel can
never run out before the input does. -/
def parseStringBody : Nat → List Char → List Char → Option (List Char × List Char)
  | 0, _, _ => none
  | fuel + 1, acc, cs =>
    match cs with
    | [] => none
    | '"' :: rest => some (acc.reverse, rest)
    | '\\' :: 'u' :: h1 :: h2 :: h3 :: h4 :: rest =>
      match hexVal h1, hexVal h2, hexVal h3, hexVal h4 with
      | some v1, some v2, some v3, some v4 =>
        let n := ((v1 * 16 + v2) * 16 + v3) * 16 + v4
        if n < 0xD800 ∨ 0xE000 ≤ n then
          parseStringBody fuel (Char.ofNat n :: acc) rest
        else if n < 0xDC00 then
          match rest with
          | '\\' :: 'u' :: g1 :: g2 :: g3 :: g4 :: rest2 =>
            match hexVal g1, hexVal g2, hexVal g3, hexVal g4 with
            | some w1, some w2, some w3, some w4 =>
              let n2 := ((w1 * 16 + w2) * 16 + w3) * 16 + w4
              if 0xDC00 ≤ n2 ∧ n2 < 0xE000 then
                parseStringBody fuel
                  (Char.ofNat (0x10000 + (n - 0xD800) * 0x400 + (n2 - 0xDC00)) :: acc) rest2
              else parseStringBody fuel (Char.ofNat 0xFFFD :: acc) rest
            | _, _, _, _ => parseStringBody fuel (Char.ofNat 0xFFFD :: acc) rest
          | _ => parseStringBody fuel (Char.ofNat 0xFFFD :: acc) rest
        else parseStringBody fuel (Char.ofNat 0xFFFD :: acc) rest
      | _, _, _, _ => none
    | '\\' :: e :: rest =>
      match unescapeChar e with
      | some c => parseStringBody fuel (c :: acc) rest
      | none => none
    | c :: rest =>
      if c.toNat < 0x20 then none else parseStringBody fuel (c :: acc) rest

/-- The members of a JSON object, after the opening brace and leading
whitespace, when the object is known to be non-empty.  The fuel only bounds
the number of members; callers pass the input length, which is ample. -/
def parseMembers : Nat → List Char → Option (List (String × String) × List Char)
  | 0, _ => none
  | fuel + 1, cs =>
    match cs with
    | '"' :: cs1 =>
      match parseStringBody (cs1.length + 1) [] cs1 with
      | none => none
      | some (k, cs2) =>
        match skipWs cs2 with
        | ':' :: cs3 =>
          match skipWs cs3 with
          | '"' :: cs4 =>
            match parseStringBody (cs4.length + 1) [] cs4 with
            | none => none
            | some (v, cs5) =>
              match skipWs cs5 with
              | ',' :: cs6 =>
                match parseMembers fuel (skipWs cs6) with
                | some (rest, cs7) => some ((String.mk k, String.mk v) :: rest, cs7)
                | none => none
              | '}' :: cs6 => some ([(String.mk k, String.mk v)], cs6)
              | _ => none
          | _ => none
        | _ => none
    | _ => none

/-- A whole JSON object of string members, with only whitespace allowed
after it (Go's `Unmarshal` rejects trailing data). -/
def parseTop (cs : List Char) : Option (List (String × String)) :=
  match skipWs cs with
  | '{' :: cs1 =>
    match skipWs cs1 with
    | '}' :: cs2 => if (skipWs cs2).isEmpty then some [] else none
    | _ =>
      match parseMembers (cs.length + 1) (skipWs cs1) with
      | some (l, rest) => if (skipWs rest).isEmpty then some l else none
      | none => none
  | _ => none

/-- Unmarshalling the member list into a map: a later duplicate key
overwrites an earlier one. -/
def foldAssoc (l : List (String × String)) : List (String × String) :=
  l.foldl (fun acc kv => setA acc kv.1 kv.2) []

/-- `NewSubscriptions`: start from an empty map, `load` the file.  A missing
file (`none`) is tolerated; an empty file parses as an empty store; any
other content must parse as a JSON object, else the error propagates. -/
def NewSubscriptions (file : Option String) : Except Unit Subscriptions :=
  match file with
  | none => .ok { data := [], file := none }
  | some txt =>
    if txt = "" then .ok { data := [], file := some txt }
    else
      match parseTop txt.data with
      | some l => .ok { data := foldAssoc l, file := some txt }
      | none => .error ()

/-! ### From the parsed member list back to the mapping -/

/-- A well-formed store: no duplicate chat keys.  This holds for every
store reachable through the API (the empty store, `Set` and `Delete`
preserve it; see the lemmas below). -/
def SubsWF (s : Subscriptions) : Prop :=
  (s.data.map Prod.fst).Nodup

/-! ## The Session Router (`internal/router/router.go`)

The revision with activation gating: `Handle` is the sole entry point.
Side effects are reified into an `Effect` list — a `reply` effect is an
*attempted* reply (the bounded outbound queue is modelled separately by
`Router.reply` below); `activate` records an `onActivate` hook invocation;
`sendKeys`/`sendRawKey` record tmux bridge calls.  The tmux bridge itself
is an oracle (`BridgeModel`), `none` standing for a nil bridge pointer; the
`wk` flag is the Subscription Store's disk-write oracle. -/

structure InboundMessage where
  channel : String
  chatID : String
  senderID : String
  text : String
  preAuthorized : Bool
deriving Repr, DecidableEq

structure OutboundMessage where
  channel : String
  chatID : String
  text : String
deriving Repr, DecidableEq

/-- The tmux bridge's observable behaviour during one call, as an oracle:
each field is the result Go's corresponding method would return. -/
structure BridgeModel where
  listSessions : Except String (List String)
  capture : String → Nat → Except String String
  sendKeys : String → String → Except String Unit
  sendRawKey : String → String → Except String Unit

inductive Effect where
  | reply (m : OutboundMessage)
  | activate (ch sender : String)
  | sendKeys (session text : String)
  | sendRawKey (session keyName : String)
deriving Repr, DecidableEq

/-- The Router's state.  `pfx` is the Go field `prefix` (the configured
command prefix; renamed because `pfx` reads better here); `activated` maps a
channel name to its locked sender ID, the empty string meaning (as in the Go
map's zero value) that the channel is not yet activated; `hasOnActivate`
models whether the `onActivate` function pointer is non-nil. -/
structure Router where
  pfx : String
  subs : Subscriptions
  bridge : Option BridgeModel
  hasOnActivate : Bool
  watching : List (String × Bool)
  activated : List (String × String)

/-- `router.New`: empty watch and activation maps. -/
def Router.New (pfx : String) (subs : Subscriptions) (bridge : Option BridgeModel)
    (hasOnActivate : Bool) : Router :=
  ⟨pfx, subs, bridge, hasOnActivate, [], []⟩

/-- The Go `helpText` constant (`{P}` is substituted with the prefix). -/
def helpTemplate : String :=
  "Available commands:\n  {P}list              — list tmux sessions\n  {P}attach <session>  — bind this chat to a session\n  {P}detach            — remove binding\n  {P}status            — show current binding\n  {P}snap              — capture and send current pane\n  {P}watch on|off      — toggle real-time push\n  {P}key <key>         — send control key (e.g. ctrl-c)\n  {P}help              — show this message"

def Router.helpText (r : Router) : String :=
  String.replace helpTemplate "{P}" r.pfx

/-- `chatKey(msg)`: `channel + ":" + chatID`. -/
def chatKey (msg : InboundMessage) : String :=
  msg.channel ++ ":" ++ msg.chatID

/-- An attempted reply to the sender's chat. -/
def mkReply (msg : InboundMessage) (text : String) : Effect :=
  Effect.reply ⟨msg.channel, msg.chatID, text⟩

/-- `strings.Fields`: split around runs of whitespace. -/
def fields (s : String) : List String :=
  (s.split Char.isWhitespace).filter (fun t => t ≠ "")

/-- `strings.TrimPrefix`. -/
def dropPfx (s p : String) : String :=
  if s.startsWith p then s.drop p.length else s

/-- The Go `keyAliases` map. -/
def keyAliases : List (String × String) :=
  [("esc", "Escape"), ("escape", "Escape"), ("bs", "BSpace"),
   ("backspace", "BSpace"), ("del", "Delete"), ("delete", "Delete"),
   ("ins", "Insert"), ("insert", "Insert"), ("pgup", "PPage"),
   ("pageup", "PPage"), ("pgdn", "NPage"), ("pagedown", "NPage"),
   ("home", "Home"), ("end", "End"), ("up", "Up"), ("down", "Down"),
   ("left", "Left"), ("right", "Right"), ("space", "Space")]

/-- `toTmuxKey`: normalise `+` to `-` and lowercase, translate `ctrl-`/
`alt-` chords and named aliases, pass anything else through verbatim. -/
def toTmuxKey (key : String) : String :=
  let normalized := (key.toLower).replace "+" "-"
  if normalized.startsWith "ctrl-" then "C-" ++ normalized.drop 5
  else if normalized.startsWith "alt-" then "M-" ++ normalized.drop 4
  else
    match lookupA keyAliases normalized with
    | some a => a
    | none => key

/-- `Router.handleCommand`: whitespace-tokenised, first token is the
case-insensitive command name. -/
def Router.handleCommand (wk : Bool) (r : Router) (msg : InboundMessage) :
    Router × List Effect :=
  match fields (dropPfx msg.text r.pfx) with
  | [] => (r, [mkReply msg (Router.helpText r)])
  | cmd0 :: args =>
    let cmd := cmd0.toLower
    let key := chatKey msg
    if cmd = "help" then (r, [mkReply msg (Router.helpText r)])
    else if cmd = "list" then
      match r.bridge with
      | none => (r, [mkReply msg "[tmux bridge not available]"])
      | some b =>
        match b.listSessions with
        | .error _ => (r, [mkReply msg "No tmux sessions found (is tmux running?)"])
        | .ok sessions =>
          (r, [mkReply msg ("Sessions:\n  " ++ String.intercalate "\n  " sessions)])
    else if cmd = "attach" then
      match args with
      | [] => (r, [mkReply msg ("Usage: " ++ r.pfx ++ "attach <session>")])
      | a :: _ =>
        ({ r with subs := Subscriptions.Set wk r.subs key a },
         [mkReply msg ("Attached to session: " ++ a)])
    else if cmd = "detach" then
      ({ r with subs := Subscriptions.Delete wk r.subs key,
                watching := setB r.watching key false },
       [mkReply msg "Detached."])
    else if cmd = "status" then
      match Subscriptions.Get r.subs key with
      | none => (r, [mkReply msg "Not attached to any session."])
      | some session =>
        (r, [mkReply msg ("Session: " ++ session ++ "\nWatch: "
              ++ (if lookupB r.watching key then "true" else "false"))])
    else if cmd = "snap" then
      match Subscriptions.Get r.subs key with
      | none => (r, [mkReply msg "Not attached to any session."])
      | some session =>
        match r.bridge with
        | none => (r, [mkReply msg "[tmux bridge not available]"])
        | some b =>
          match b.capture session 50 with
          | .error e => (r, [mkReply msg ("Capture failed: " ++ e)])
          | .ok content => (r, [mkReply msg ("```\n" ++ content ++ "\n```")])
    else if cmd = "watch" then
      match args with
      | [] => (r, [mkReply msg ("Usage: " ++ r.pfx ++ "watch on|off")])
      | a :: _ =>
        if a.toLower = "on" then
          ({ r with watching := setB r.watching key true },
           [mkReply msg "Watch mode enabled."])
        else if a.toLower = "off" then
          ({ r with watching := setB r.watching key false },
           [mkReply msg "Watch mode disabled."])
        else (r, [mkReply msg ("Usage: " ++ r.pfx ++ "watch on|off")])
    else if cmd = "key" then
      match args with
      | [] => (r, [mkReply msg ("Usage: " ++ r.pfx ++ "key <key> (e.g. ctrl-c)")])
      | a :: _ =>
        match Subscriptions.Get r.subs key with
        | none => (r, [mkReply msg "Not attached to any session."])
        | some session =>
          match r.bridge with
          | none => (r, [mkReply msg "[tmux bridge not available]"])
          | some b =>
            match b.sendRawKey session (toTmuxKey a) with
            | .error e =>
              (r, [Effect.sendRawKey session (toTmuxKey a),
                   mkReply msg ("Error: " ++ e)])
            | .ok _ => (r, [Effect.sendRawKey session (toTmuxKey a)])
    else
      (r, [mkReply msg ("Unknown command: " ++ r.pfx ++ cmd
            ++ "\nRun " ++ r.pfx ++ "help for available commands.")])

/-- The post-gate part of `Handle`: command dispatch or tmux forward. -/
def Router.dispatch (wk : Bool) (r : Router) (msg : InboundMessage) :
    Router × List Effect :=
  if msg.text.startsWith r.pfx then Router.handleCommand wk r msg
  else
    match Subscriptions.Get r.subs (chatKey msg) with
    | none =>
      (r, [mkReply msg ("No session bound. Use " ++ r.pfx
            ++ "attach <session> to bind one.\nRun " ++ r.pfx
            ++ "list to see available sessions.")])
    | some session =>
      match r.bridge with
      | none => (r, [mkReply msg "[tmux bridge not available]"])
      | some b =>
        match b.sendKeys session msg.text with
        | .error e =>
          (r, [Effect.sendKeys session msg.text,
               mkReply msg ("Error sending to tmux: " ++ e)])
        | .ok _ => (r, [Effect.sendKeys session msg.text])

/-- `Router.Handle`: the activation gate, then dispatch.  A channel without
`preAuthorized` senders accepts nothing until the activation keyword
arrives; once locked, only the locked sender passes. -/
def Router.Handle (wk : Bool) (r : Router) (msg : InboundMessage) :
    Router × List Effect :=
  if msg.preAuthorized then Router.dispatch wk r msg
  else
    let lockedSender := lookupD r.activated msg.channel ""
    if lockedSender = "" then
      if msg.text = r.pfx ++ "im2code" then
        ({ r with activated := setA r.activated msg.channel msg.senderID },
         (if r.hasOnActivate then [Effect.activate msg.channel msg.senderID] else [])
           ++ [mkReply msg ("Activated. Send " ++ r.pfx
                 ++ "help to see available commands.")])
      else (r, [])
    else if lockedSender ≠ msg.senderID then (r, [])
    else Router.dispatch wk r msg

/-- A sequence of inbound messages handled in order, collecting effects. -/
def Router.HandleAll (wk : Bool) (r : Router) (msgs : List InboundMessage) :
    Router × List Effect :=
  msgs.foldl (fun acc m =>
    let res := Router.Handle wk acc.1 m
    (res.1, acc.2 ++ res.2)) (r, [])

/-- `Router.WatchedChats`: snapshot of chatKey → session for chats with the
watch flag set and an existing binding. -/
def Router.WatchedChats (r : Router) : List (String × String) :=
  r.watching.foldr (fun kv acc =>
    if kv.2 then
      match Subscriptions.Get r.subs kv.1 with
      | some session => (kv.1, session) :: acc
      | none => acc
    else acc) []

/-! ### The bounded outbound queue

Go buffered channels with non-blocking `select`/`default` sends: the send
succeeds exactly when the buffer is below capacity, and a failed send
changes nothing and never blocks. -/

structure OutQueue where
  cap : Nat
  buf : List OutboundMessage
deriving Repr, DecidableEq

/-- A non-blocking send on a bounded queue (`select { case ch <- m: default: }`). -/
def chanTrySend (q : OutQueue) (m : OutboundMessage) : OutQueue × Bool :=
  if q.buf.length < q.cap then ({ q with buf := q.buf ++ [m] }, true)
  else (q, false)

/-- `Router.reply`: build the outbound message and try a non-blocking send;
on a full queue the reply is dropped (Go logs a warning) and the flag is
`false`. -/
def Router.reply (q : OutQueue) (msg : InboundMessage) (text : String) :
    OutQueue × Bool :=
  chanTrySend q ⟨msg.channel, msg.chatID, text⟩

/-! ## The Idle Detector (`internal/tmux/idle.go`, dual-ticker revision)

`Run` polls on a fast 100 ms ticker and a slow 10 s periodic ticker.  Each
loop iteration is embedded as `detStep` on one `DetEvent`: a tick of either
ticker carrying the capture result (`none` = capture error, skipped) and
the clock reading `now` in nanoseconds.  The loop's local state
(`lastChange`, `lastPushed`, `lastFired`) and the receiver field
`d.lastContent` form `DetState`; a `time.Time` zero value is `Option.none`.
Clock readings are nonnegative and nondecreasing along a run, so Go's
signed `time.Since` is `Nat` subtraction here.  The compiled prompt
regexps are abstracted as predicates on the captured content. -/

/-- The two compiled pattern families of `NewPromptMatcher`: each source
pattern compiled as given (typically an end-of-line anchor), and its
line-start variant `^` + pattern-without-trailing-`$` + `\s`. -/
structure PromptMatcher where
  patterns : List (String → Bool)
  startPats : List (String → Bool)

/-- `PromptMatcher.Match`: any pattern of either family matches. -/
def PromptMatcher.Match (m : PromptMatcher) (line : String) : Bool :=
  m.patterns.any (fun r => r line) || m.startPats.any (fun r => r line)

/-- The detector's configuration (`IdleDetector` fields used by `Run`). -/
structure IdleDetector where
  timeout : Nat
  maxLines : Nat
  promptMatcher : PromptMatcher

/-- The mutable state of one `Run` loop. -/
structure DetState where
  lastContent : String
  lastChange : Option Nat
  lastPushed : String
  lastFired : Option Nat

/-- Zero values at loop entry: empty strings, zero times. -/
def initDetState : DetState :=
  ⟨"", none, "", none⟩

/-- One ticker firing: which ticker, the capture result (`none` = error),
and the current clock reading. -/
inductive DetEvent where
  | pollTick (cap : Option String) (now : Nat)
  | periodicTick (cap : Option String) (now : Nat)

/-- The cooldown guard: `!lastFired.IsZero() && time.Since(lastFired) <
d.timeout`. -/
def inCooldown (timeout now : Nat) : Option Nat → Bool
  | some tf => now - tf < timeout
  | none => false

/-- One iteration of `Run`'s select loop.  Returns the new state and the
pushed content, if this iteration called `onIdle`. -/
def detStep (d : IdleDetector) (s : DetState) (e : DetEvent) :
    DetState × Option String :=
  match e with
  | .periodicTick none _ => (s, none)
  | .periodicTick (some content) now =>
    if content ≠ s.lastPushed then
      ({ s with lastPushed := content, lastFired := some now }, some content)
    else (s, none)
  | .pollTick none _ => (s, none)
  | .pollTick (some content) now =>
    if content ≠ s.lastContent then
      ({ s with lastContent := content, lastChange := some now }, none)
    else if content = s.lastPushed then (s, none)
    else
      match s.lastChange with
      | none => (s, none)
      | some tc =>
        if inCooldown d.timeout now s.lastFired then (s, none)
        else
          if now - tc > d.timeout ∨ d.promptMatcher.Match content then
            ({ s with lastPushed := content, lastFired := some now }, some content)
          else (s, none)

/-- A whole run: fold `detStep` over an event trace, collecting pushes. -/
def runDet (d : IdleDetector) (s : DetState) (es : List DetEvent) :
    DetState × List String :=
  match es with
  | [] => (s, [])
  | e :: rest =>
    let r := detStep d s e
    let r2 := runDet d r.1 rest
    (r2.1, (match r.2 with | some p => [p] | none => []) ++ r2.2)

/-- An event whose capture observed content `c`, or a capture error —
i.e. any event of a period during which the pane content stays `c`. -/
def capturesOnly (c : String) : DetEvent → Prop
  | .pollTick cap _ => cap = some c ∨ cap = none
  | .periodicTick cap _ => cap = some c ∨ cap = none

/-- The no-push invariant of the waiting phase: content seen and stable
since `t0`, nothing pushed yet, no cooldown pending. -/
def PreInv (c : String) (t0 : Nat) (s : DetState) : Prop :=
  s.lastContent = c ∧ s.lastChange = some t0 ∧ s.lastPushed ≠ c ∧ s.lastFired = none

/-! ## The Watch Supervisor (`watchSubscriptions` in `cmd/im2code/start.go`)

Each 5-second tick reconciles the running Idle Detector instances against
the current `WatchedChats()` snapshot: it cancels detectors whose session
no longer has a watcher and starts one detector per newly watched session,
deduplicating by session name (the `active` map is keyed by session).
Detector instances are identified here by a fresh `Nat` drawn from
`nextId`, standing for the goroutine/cancel-function identity. -/

structure WatchState where
  active : List (String × Nat)
  nextId : Nat
deriving Repr, DecidableEq

/-- One reconciliation tick: drop unneeded sessions, then walk the
snapshot, starting a detector for each session not already active
(including ones started earlier in the same walk). -/
def reconcileTick (st : WatchState) (watched : List (String × String)) : WatchState :=
  let needed := watched.map Prod.snd
  let kept := st.active.filter (fun p => needed.contains p.1)
  let res := watched.foldl
    (fun (acc : List (String × Nat) × Nat) kv =>
      if acc.1.any (fun p => p.1 = kv.2) then acc
      else (acc.1 ++ [(kv.2, acc.2)], acc.2 + 1))
    (kept, st.nextId)
  ⟨res.1, res.2⟩

/-- The states reachable by the reconciliation loop from startup. -/
def reachWatch (snaps : List (List (String × String))) : WatchState :=
  snaps.foldl reconcileTick ⟨[], 0⟩

/-! ## Idle-push fan-out and the bounded queues -/

/-- `strings.SplitN(s, ":", 2)`. -/
def splitN2 (s : String) : List String :=
  match s.splitOn ":" with
  | [] => [s]
  | [x] => [x]
  | x :: rest => [x, String.intercalate ":" rest]

/-- The `onIdle` fan-out of `watchSubscriptions`: re-query the current
watchers, and for each chat watching this session enqueue the fenced
capture with a non-blocking send (dropping it, with a logged warning, when
the outbound queue is full). -/
def watchOnIdle (watched : List (String × String)) (sess content : String)
    (q : OutQueue) : OutQueue :=
  watched.foldl (fun q kv =>
    if kv.2 ≠ sess then q
    else
      match splitN2 kv.1 with
      | [ch, chat] =>
        (chanTrySend q (OutboundMessage.mk ch chat ("```\n" ++ content ++ "\n```"))).1
      | _ => q) q

/-! ## Interval configuration (`runStart` and `parseClamped` in
`cmd/im2code/start.go`)

Durations are `Int` nanoseconds, as in Go.  `time.ParseDuration` is a
stdlib boundary: its result enters as `Option Int`, `none` for a parse
error (note that `"0s"` parses *successfully* to zero). -/

def nsPerSecond : Int := 1000000000

/-- `parseClamped(s, def, min, max)`: fall back to `def` when parsing
fails or yields zero, then clamp into `[min, max]`. -/
def parseClamped (p : Option Int) (dflt lo hi : Int) : Int :=
  let d0 := match p with
    | none => dflt
    | some d => if d = 0 then dflt else d
  let d1 := if d0 < lo then lo else d0
  if d1 > hi then hi else d1

/-- The idle timeout as `runStart` computes it: `time.ParseDuration` with a
fallback to 2s only when parsing *fails* — no zero check and no clamping. -/
def runStartIdleTimeout (p : Option Int) : Int :=
  match p with
  | none => 2 * nsPerSecond
  | some d => d

/-- `watchTimeMin := parseClamped(cfg.Tmux.WatchTimeMin, 5s, 1s, 30s)`. -/
def runStartWatchTimeMin (p : Option Int) : Int :=
  parseClamped p (5 * nsPerSecond) (1 * nsPerSecond) (30 * nsPerSecond)

/-- `watchTimeMax := parseClamped(cfg.Tmux.WatchTimeMax, 20s, 5s, 3600s)`. -/
def runStartWatchTimeMax (p : Option Int) : Int :=
  parseClamped p (20 * nsPerSecond) (5 * nsPerSecond) (3600 * nsPerSecond)

/-! ## The `setivl` command (spec-modelled) -/

def clampI (d lo hi : Int) : Int :=
  if d < lo then lo else if d > hi then hi else d

/-- Modelled from the spec: the router revision implementing the `setivl`
bridge command is not under `src/` — only the README documents it
(`#setivl min,max — adjust watch intervals live; no args prints current`)
and the daemon's `runStart` wires the two watch intervals it adjusts.  Per
the spec table: "`setivl <min>,<max>`: adjust push intervals, clamped to a
configured bound; no args reports current values".  `parseIvl` abstracts
the parsing of the `"<min>,<max>"` argument into two durations; `lo`/`hi`
is the configured clamp bound. -/
def handleSetivl (lo hi : Int) (cur : Int × Int) (args : List String)
    (parseIvl : String → Option (Int × Int)) : (Int × Int) × String :=
  match args with
  | [] => (cur, "Current intervals: " ++ toString cur.1 ++ "," ++ toString cur.2)
  | a :: _ =>
    match parseIvl a with
    | none => (cur, "Usage: setivl <min>,<max>")
    | some (mn, mx) =>
      ((clampI mn lo hi, clampI mx lo hi),
       "Intervals set: " ++ toString (clampI mn lo hi) ++ ","
         ++ toString (clampI mx lo hi))

theorem lookupA_setA_self (l : List (String × String)) (k v : String) :
    lookupA (setA l k v) k = some v := by
  induction l with
  | nil => simp [setA, lookupA]
  | cons kv rest ih =>
    by_cases h : kv.1 = k
    · simp [setA, lookupA, h]
    · simp [setA, lookupA, h, ih]

theorem lookupA_delA_self (l : List (String × String)) (k : String) :
    lookupA (delA l k) k = none := by
  induction l with
  | nil => simp [delA, lookupA]
  | cons kv rest ih =>
    by_cases h : kv.1 = k
    · simp [delA, h, ih]
    · simp [delA, lookupA, h, ih]

/-- **C2.** For every chat key `K` and session name `S`: immediately after
`Set(K, S)`, `Get(K)` returns `(S, true)`; immediately after `Delete(K)`,
`Get(K)` returns `(_, false)`.  (`wk` is the disk-write oracle; the map, and
hence `Get`, is updated either way.) -/
theorem subscriptions_get_after_set_delete
    (s : Subscriptions) (K S : String) (wk : Bool) :
    Subscriptions.Get (Subscriptions.Set wk s K S) K = some S ∧
    Subscriptions.Get (Subscriptions.Delete wk s K) K = none := by
  constructor
  · unfold Subscriptions.Get Subscriptions.Set Subscriptions.save
    cases wk <;> simp [lookupA_setA_self]
  · unfold Subscriptions.Get Subscriptions.Delete Subscriptions.save
    cases wk <;> simp [lookupA_delA_self]

/-! ### Round-trip lemmas: the parser inverts the encoder -/

theorem hexVal_toHexDigit : ∀ d : Nat, d < 16 → hexVal (toHexDigit d) = some d := by
  decide

theorem skipWs_cons_not {c : Char} (l : List Char) (h : jsonWs c = false) :
    skipWs (c :: l) = c :: l := by
  simp [skipWs, h]

theorem skipWs_cons_ws {c : Char} (l : List Char) (h : jsonWs c = true) :
    skipWs (c :: l) = skipWs l := by
  simp [skipWs, h]

/-- Parsing one escaped character undoes `escapeChar` (one fuel step per
source character). -/
theorem parseStringBody_escape (f : Nat) (c : Char) (acc rest : List Char) :
    parseStringBody (f + 1) acc (escapeChar c ++ rest)
      = parseStringBody f (c :: acc) rest := by
  by_cases h1 : c = '"'
  · subst h1; simp [escapeChar, parseStringBody, unescapeChar]
  by_cases h2 : c = '\\'
  · subst h2; simp [escapeChar, parseStringBody, unescapeChar]
  by_cases h3 : c = '\n'
  · subst h3; simp [escapeChar, h1, h2, parseStringBody, unescapeChar]
  by_cases h4 : c = '\r'
  · subst h4; simp [escapeChar, h1, h2, h3, parseStringBody, unescapeChar]
  by_cases h5 : c = '\t'
  · subst h5; simp [escapeChar, h1, h2, h3, h4, parseStringBody, unescapeChar]
  by_cases h6 : c.toNat < 0x20 ∨ c = '<' ∨ c = '>' ∨ c = '&'
  · have hn : c.toNat < 0x40 := by
      rcases h6 with h | h | h | h
      · omega
      · subst h; decide
      · subst h; decide
      · subst h; decide
    have hdiv : c.toNat / 16 < 16 := by omega
    have hmod : c.toNat % 16 < 16 := by omega
    have harith : ((0 * 16 + 0) * 16 + c.toNat / 16) * 16 + c.toNat % 16 = c.toNat := by
      omega
    simp only [escapeChar, if_neg h1, if_neg h2, if_neg h3, if_neg h4, if_neg h5,
      if_pos h6, List.cons_append, List.nil_append]
    simp only [parseStringBody, hexVal_toHexDigit _ hdiv, hexVal_toHexDigit _ hmod]
    have h0 : hexVal '0' = some 0 := by decide
    simp only [h0, harith]
    rw [if_pos (Or.inl (by omega : c.toNat < 0xD800))]
    rw [Char.ofNat_toNat]
  by_cases h7 : c.toNat = 0x2028
  · have hc : Char.ofNat 0x2028 = c := by
      have := Char.ofNat_toNat c
      rw [h7] at this
      exact this
    simp only [escapeChar, if_neg h1, if_neg h2, if_neg h3, if_neg h4, if_neg h5,
      if_neg h6, if_pos h7, List.cons_append, List.nil_append]
    have e2 : hexVal '2' = some 2 := by decide
    have e0 : hexVal '0' = some 0 := by decide
    have e8 : hexVal '8' = some 8 := by decide
    simp only [parseStringBody, e2, e0, e8]
    norm_num
    rw [hc]
  by_cases h8 : c.toNat = 0x2029
  · have hc : Char.ofNat 0x2029 = c := by
      have := Char.ofNat_toNat c
      rw [h8] at this
      exact this
    simp only [escapeChar, if_neg h1, if_neg h2, if_neg h3, if_neg h4, if_neg h5,
      if_neg h6, if_neg h7, if_pos h8, List.cons_append, List.nil_append]
    have e2 : hexVal '2' = some 2 := by decide
    have e0 : hexVal '0' = some 0 := by decide
    have e9 : hexVal '9' = some 9 := by decide
    simp only [parseStringBody, e2, e0, e9]
    norm_num
    rw [hc]
  · have hctl : ¬ c.toNat < 0x20 := fun h => h6 (Or.inl h)
    simp only [escapeChar, if_neg h1, if_neg h2, if_neg h3, if_neg h4, if_neg h5,
      if_neg h6, if_neg h7, if_neg h8, List.singleton_append]
    simp only [parseStringBody]
    split
    all_goals simp_all

/-- Parsing an escaped character run stops exactly at the closing quote. -/
theorem parseStringBody_flatMap (cs : List Char) :
    ∀ (f : Nat) (acc rest : List Char), cs.length < f →
      parseStringBody f acc (cs.flatMap escapeChar ++ '"' :: rest)
        = some (acc.reverse ++ cs, rest) := by
  induction cs with
  | nil =>
    intro f acc rest hf
    cases f with
    | zero => omega
    | succ f' => simp [parseStringBody]
  | cons c cs ih =>
    intro f acc rest hf
    cases f with
    | zero => simp at hf
    | succ f' =>
      rw [List.flatMap_cons, List.append_assoc, parseStringBody_escape]
      rw [ih f' (c :: acc) rest (by simp at hf; omega)]
      simp

theorem one_le_length_escapeChar (c : Char) : 1 ≤ (escapeChar c).length := by
  unfold escapeChar
  split_ifs <;> simp

theorem length_le_flatMap_escape (cs : List Char) :
    cs.length ≤ (cs.flatMap escapeChar).length := by
  induction cs with
  | nil => simp
  | cons c cs ih =>
    have := one_le_length_escapeChar c
    simp only [List.flatMap_cons, List.length_append, List.length_cons]
    omega

/-- The fuel `parseMembers` hands to `parseStringBody` (input length plus
one) is always enough to decode an encoded string literal. -/
theorem parseString_enc (s : String) (tail : List Char) :
    parseStringBody ((s.data.flatMap escapeChar ++ '"' :: tail).length + 1) []
        (s.data.flatMap escapeChar ++ '"' :: tail)
      = some (s.data, tail) := by
  rw [parseStringBody_flatMap]
  · simp
  · have := length_le_flatMap_escape s.data
    simp only [List.length_append, List.length_cons]
    omega

/-- Skipping whitespace over an encoded member line lands on the opening
quote of its key. -/
theorem skipWs_encPair_append (kv : String × String) (X : List Char) :
    skipWs (encPair kv ++ X)
      = '"' :: (kv.1.data.flatMap escapeChar
          ++ '"' :: (':' :: ' ' :: '"' :: (kv.2.data.flatMap escapeChar ++ '"' :: X))) := by
  obtain ⟨k, v⟩ := kv
  have h1 : encPair (k, v) ++ X
      = ' ' :: ' ' :: '"' :: (k.data.flatMap escapeChar
          ++ '"' :: (':' :: ' ' :: '"' :: (v.data.flatMap escapeChar ++ '"' :: X))) := by
    simp [encPair, encStr, List.cons_append, List.append_assoc]
  rw [h1, skipWs_cons_ws _ (by decide), skipWs_cons_ws _ (by decide),
    skipWs_cons_not _ (by decide)]

/-- One fuel step of `parseMembers` consumes exactly one encoded member
line and then dispatches on what follows. -/
theorem parseMembers_encPair (f : Nat) (kv : String × String) (X : List Char) :
    parseMembers (f + 1) (skipWs (encPair kv ++ X))
      = (match skipWs X with
         | ',' :: cs6 =>
           (match parseMembers f (skipWs cs6) with
            | some (rest, cs7) => some (kv :: rest, cs7)
            | none => none)
         | '}' :: cs6 => some ([kv], cs6)
         | _ => none) := by
  obtain ⟨k, v⟩ := kv
  rw [skipWs_encPair_append]
  simp only [parseMembers]
  rw [parseString_enc k (':' :: ' ' :: '"' :: (v.data.flatMap escapeChar ++ '"' :: X))]
  simp only [skipWs_cons_not _ (by decide : jsonWs ':' = false)]
  simp only [skipWs_cons_ws _ (by decide : jsonWs ' ' = true),
    skipWs_cons_not _ (by decide : jsonWs '"' = false)]
  rw [parseString_enc v X]

/-- `parseMembers_encPair`, specialised to a closing brace after the member. -/
theorem parseMembers_encPair_last (f : Nat) (kv : String × String) (X cs6 : List Char)
    (h : skipWs X = '}' :: cs6) :
    parseMembers (f + 1) (skipWs (encPair kv ++ X)) = some ([kv], cs6) := by
  rw [parseMembers_encPair, h]
  rfl

/-- `parseMembers_encPair`, specialised to a comma after the member. -/
theorem parseMembers_encPair_more (f : Nat) (kv : String × String) (X cs6 : List Char)
    (rest : List (String × String))
    (h : skipWs X = ',' :: cs6)
    (h2 : parseMembers f (skipWs cs6) = some (rest, [])) :
    parseMembers (f + 1) (skipWs (encPair kv ++ X)) = some (kv :: rest, []) := by
  rw [parseMembers_encPair, h]
  show (match parseMembers f (skipWs cs6) with
        | some (r, cs7) => some (kv :: r, cs7)
        | none => none) = some (kv :: rest, [])
  rw [h2]

theorem two_le_length_encPair (kv : String × String) : 2 ≤ (encPair kv).length := by
  simp [encPair]

theorem length_le_encMembers (m : List (String × String)) :
    m.length ≤ (encMembers m).length := by
  induction m with
  | nil => simp [encMembers]
  | cons kv rest ih =>
    cases rest with
    | nil =>
      have := two_le_length_encPair kv
      simp only [encMembers, List.length_cons, List.length_nil]
      omega
    | cons kv2 rest2 =>
      have h1 := two_le_length_encPair kv
      simp only [encMembers, List.length_append, List.length_cons] at ih ⊢
      omega

/-- Parsing the encoded member lines of a non-empty map recovers it. -/
theorem parseMembers_enc :
    ∀ (m : List (String × String)) (f : Nat), m.length < f → m ≠ [] →
      parseMembers f (skipWs (encMembers m ++ ['\n', '}'])) = some (m, []) := by
  intro m
  induction m with
  | nil => intro f _ hne; exact absurd rfl hne
  | cons kv rest ih =>
    intro f hf _
    cases f with
    | zero => simp at hf
    | succ f' =>
      cases rest with
      | nil =>
        have hsh : encMembers [kv] ++ ['\n', '}'] = encPair kv ++ ['\n', '}'] := by
          simp [encMembers]
        rw [hsh, parseMembers_encPair_last f' kv _ []]
        rw [skipWs_cons_ws _ (by decide : jsonWs '\n' = true),
          skipWs_cons_not _ (by decide : jsonWs '}' = false)]
      | cons kv2 rest2 =>
        have hsh : encMembers (kv :: kv2 :: rest2) ++ ['\n', '}']
            = encPair kv ++ (',' :: '\n' :: (encMembers (kv2 :: rest2) ++ ['\n', '}'])) := by
          simp [encMembers, List.append_assoc]
        rw [hsh,
          parseMembers_encPair_more f' kv _ ('\n' :: (encMembers (kv2 :: rest2) ++ ['\n', '}']))
            (kv2 :: rest2)
            (skipWs_cons_not _ (by decide : jsonWs ',' = false))
            (by
              rw [skipWs_cons_ws _ (by decide : jsonWs '\n' = true)]
              exact ih f' (by simp at hf ⊢; omega) (by simp))]

/-- `parseTop` after the opening brace has been recognised. -/
theorem parseTop_eq_open (cs cs1 : List Char) (h : skipWs cs = '{' :: cs1) :
    parseTop cs
      = (match skipWs cs1 with
         | '}' :: cs2 => if (skipWs cs2).isEmpty then some [] else none
         | _ =>
           match parseMembers (cs.length + 1) (skipWs cs1) with
           | some (l, rest) => if (skipWs rest).isEmpty then some l else none
           | none => none) := by
  unfold parseTop
  rw [h]
  rfl

/-- Parsing the whole encoded file recovers the (sorted) member list. -/
theorem parseTop_enc (l : List (String × String)) :
    parseTop (encodeSubsL l) = some (sortPairs l) := by
  unfold encodeSubsL
  cases hs : sortPairs l with
  | nil => rfl
  | cons kv rest =>
    have hopen : skipWs ('{' :: '\n' :: (encMembers (kv :: rest) ++ ['\n', '}']))
        = '{' :: ('\n' :: (encMembers (kv :: rest) ++ ['\n', '}'])) :=
      skipWs_cons_not _ (by decide)
    rw [parseTop_eq_open _ _ hopen]
    have hws : skipWs ('\n' :: (encMembers (kv :: rest) ++ ['\n', '}']))
        = skipWs (encMembers (kv :: rest) ++ ['\n', '}']) :=
      skipWs_cons_ws _ (by decide)
    obtain ⟨W, hW⟩ : ∃ W, skipWs ('\n' :: (encMembers (kv :: rest) ++ ['\n', '}']))
        = '"' :: W := by
      rw [hws]
      cases rest with
      | nil =>
        rw [show encMembers [kv] ++ ['\n', '}'] = encPair kv ++ ['\n', '}'] by
          simp [encMembers]]
        exact ⟨_, skipWs_encPair_append kv _⟩
      | cons kv2 rest2 =>
        rw [show encMembers (kv :: kv2 :: rest2) ++ ['\n', '}']
            = encPair kv ++ (',' :: '\n' :: (encMembers (kv2 :: rest2) ++ ['\n', '}'])) by
          simp [encMembers, List.append_assoc]]
        exact ⟨_, skipWs_encPair_append kv _⟩
    rw [hW]
    have hmem : parseMembers
        (('{' :: '\n' :: (encMembers (kv :: rest) ++ ['\n', '}'])).length + 1)
        ('"' :: W) = some (kv :: rest, []) := by
      rw [← hW, hws]
      refine parseMembers_enc (kv :: rest) _ ?_ (by simp)
      have h1 := length_le_encMembers (kv :: rest)
      simp only [List.length_cons, List.length_append] at h1 ⊢
      omega
    rw [hmem]
    rfl

theorem mem_keys_setA {l : List (String × String)} {k v x : String}
    (h : x ∈ (setA l k v).map Prod.fst) : x ∈ l.map Prod.fst ∨ x = k := by
  induction l with
  | nil => simp [setA] at h; exact Or.inr h
  | cons kv rest ih =>
    by_cases hk : kv.1 = k
    · simp only [setA, if_pos hk, List.map_cons, List.mem_cons] at h ⊢
      rcases h with h | h
      · exact Or.inr h
      · exact Or.inl (Or.inr h)
    · simp only [setA, if_neg hk, List.map_cons, List.mem_cons] at h ⊢
      rcases h with h | h
      · exact Or.inl (Or.inl h)
      · rcases ih h with h' | h'
        · exact Or.inl (Or.inr h')
        · exact Or.inr h'

theorem mem_keys_delA {l : List (String × String)} {k x : String}
    (h : x ∈ (delA l k).map Prod.fst) : x ∈ l.map Prod.fst := by
  induction l with
  | nil => simp [delA] at h
  | cons kv rest ih =>
    by_cases hk : kv.1 = k
    · simp only [delA, if_pos hk] at h
      simp only [List.map_cons, List.mem_cons]
      exact Or.inr (ih h)
    · simp only [delA, if_neg hk, List.map_cons, List.mem_cons] at h ⊢
      rcases h with h | h
      · exact Or.inl h
      · exact Or.inr (ih h)

theorem nodup_keys_setA (l : List (String × String)) (k v : String)
    (h : (l.map Prod.fst).Nodup) : ((setA l k v).map Prod.fst).Nodup := by
  induction l with
  | nil => simp [setA]
  | cons kv rest ih =>
    simp only [List.map_cons, List.nodup_cons] at h
    by_cases hk : kv.1 = k
    · simp only [setA, if_pos hk, List.map_cons, List.nodup_cons]
      exact ⟨hk ▸ h.1, h.2⟩
    · simp only [setA, if_neg hk, List.map_cons, List.nodup_cons]
      refine ⟨?_, ih h.2⟩
      intro hmem
      rcases mem_keys_setA hmem with h' | h'
      · exact h.1 h'
      · exact hk h'

theorem nodup_keys_delA (l : List (String × String)) (k : String)
    (h : (l.map Prod.fst).Nodup) : ((delA l k).map Prod.fst).Nodup := by
  induction l with
  | nil => simp [delA]
  | cons kv rest ih =>
    simp only [List.map_cons, List.nodup_cons] at h
    by_cases hk : kv.1 = k
    · simp only [delA, if_pos hk]
      exact ih h.2
    · simp only [delA, if_neg hk, List.map_cons, List.nodup_cons]
      exact ⟨fun hmem => h.1 (mem_keys_delA hmem), ih h.2⟩

/-- `SubsWF` is an invariant of the store's API. -/
theorem subsWF_invariant (s : Subscriptions) (key session : String) (wk : Bool)
    (h : SubsWF s) :
    SubsWF (Subscriptions.Set wk s key session) ∧
    SubsWF (Subscriptions.Delete wk s key) := by
  unfold SubsWF Subscriptions.Set Subscriptions.Delete Subscriptions.save at *
  constructor
  · cases wk <;> exact nodup_keys_setA _ _ _ h
  · cases wk <;> exact nodup_keys_delA _ _ h

theorem setA_eq_append {acc : List (String × String)} {k v : String}
    (h : ∀ p ∈ acc, p.1 ≠ k) : setA acc k v = acc ++ [(k, v)] := by
  induction acc with
  | nil => rfl
  | cons kv rest ih =>
    have hk : kv.1 ≠ k := h kv (by simp)
    simp only [setA, if_neg hk, List.cons_append]
    rw [ih (fun p hp => h p (by simp [hp]))]

theorem foldl_setA_eq (l : List (String × String)) :
    ∀ acc, (∀ p ∈ acc, p.1 ∉ l.map Prod.fst) → (l.map Prod.fst).Nodup →
      l.foldl (fun a kv => setA a kv.1 kv.2) acc = acc ++ l := by
  induction l with
  | nil => intro acc _ _; simp
  | cons kv rest ih =>
    intro acc hd hn
    simp only [List.map_cons, List.nodup_cons] at hn
    simp only [List.foldl_cons]
    rw [setA_eq_append (fun p hp => by
      have := hd p hp
      simp only [List.map_cons, List.mem_cons] at this
      exact fun hEq => this (Or.inl hEq))]
    rw [ih (acc ++ [kv]) ?_ hn.2]
    · simp
    · intro p hp
      rcases List.mem_append.mp hp with hp' | hp'
      · have := hd p hp'
        simp only [List.map_cons, List.mem_cons] at this
        exact fun hmem => this (Or.inr hmem)
      · have hpkv : p = kv := by simpa using hp'
        rw [hpkv]
        exact hn.1

theorem foldAssoc_eq_self {l : List (String × String)}
    (hn : (l.map Prod.fst).Nodup) : foldAssoc l = l := by
  unfold foldAssoc
  rw [foldl_setA_eq l [] (by simp) hn]
  simp

theorem lookupA_eq_of_perm {l₁ l₂ : List (String × String)} (h : l₁.Perm l₂)
    (hn : (l₁.map Prod.fst).Nodup) (k : String) : lookupA l₁ k = lookupA l₂ k := by
  induction h with
  | nil => rfl
  | cons x h ih =>
    rename_i t₁ t₂
    simp only [List.map_cons, List.nodup_cons] at hn
    by_cases hx : x.1 = k
    · simp [lookupA, hx]
    · simp only [lookupA, if_neg hx]
      exact ih hn.2
  | swap x y l =>
    simp only [List.map_cons, List.nodup_cons, List.mem_cons] at hn
    by_cases hy : y.1 = k
    · by_cases hx : x.1 = k
      · exact absurd (hy.trans hx.symm) (fun hEq => hn.1 (Or.inl hEq))
      · simp [lookupA, hx, hy]
    · by_cases hx : x.1 = k
      · simp [lookupA, hx, hy]
      · simp [lookupA, hx, hy]
  | trans h1 h2 ih1 ih2 =>
    rename_i l₁' l₂' l₃'
    rw [ih1 hn, ih2 ((h1.map Prod.fst).nodup hn)]

/-- **C10.** `Set` and `Delete` always return normally (they are total
functions returning no error), apply the mutation to the in-memory map even
when the file write fails (`wk = false`), and silently discard the write
error: nothing is returned or rolled back, so after a failed write the
on-disk content is left exactly as it was, lagging the in-memory state. -/
theorem subscriptions_mutate_despite_write_failure
    (s : Subscriptions) (key session : String) :
    Subscriptions.Set false s key session
      = { data := setA s.data key session, file := s.file } ∧
    Subscriptions.Delete false s key
      = { data := delA s.data key, file := s.file } := by
  constructor <;> rfl

theorem encodeSubs_ne_empty (l : List (String × String)) : encodeSubs l ≠ "" := by
  intro hEq
  have hdata : encodeSubsL l = ("" : String).data := congrArg String.data hEq
  unfold encodeSubsL at hdata
  cases hs : sortPairs l <;> rw [hs] at hdata <;> simp at hdata

/-- **C5.** Persisting the store to disk (as each mutation does via `save`)
and constructing a new `Subscriptions` from that same file content yields an
identical chat-key-to-session mapping.  `wk = true` is the "absent I/O
failure" hypothesis; `SubsWF` (no duplicate chat keys) holds for every store
reachable through the API. -/
theorem subscriptions_roundtrip (s : Subscriptions) (h : SubsWF s) :
    ∃ s', NewSubscriptions (Subscriptions.save true s).file = Except.ok s' ∧
      ∀ k, Subscriptions.Get s' k = Subscriptions.Get s k := by
  have hperm : (sortPairs s.data).Perm s.data := List.perm_insertionSort _ _
  have hnodup : ((sortPairs s.data).map Prod.fst).Nodup :=
    ((hperm.symm.map Prod.fst)).nodup h
  refine ⟨⟨foldAssoc (sortPairs s.data), some (encodeSubs s.data)⟩, ?_, ?_⟩
  · show NewSubscriptions (some (encodeSubs s.data)) = _
    unfold NewSubscriptions
    show (if encodeSubs s.data = "" then
            Except.ok (Subscriptions.mk [] (some (encodeSubs s.data)))
          else
            match parseTop (encodeSubs s.data).data with
            | some l =>
              Except.ok (Subscriptions.mk (foldAssoc l) (some (encodeSubs s.data)))
            | none => Except.error ()) = _
    rw [if_neg (encodeSubs_ne_empty s.data)]
    rw [show (encodeSubs s.data).data = encodeSubsL s.data from rfl, parseTop_enc]
  · intro k
    show lookupA (foldAssoc (sortPairs s.data)) k = lookupA s.data k
    rw [foldAssoc_eq_self hnodup]
    exact lookupA_eq_of_perm hperm hnodup k

/-- Witness for C5 at a concrete two-entry store: the reconstruction
succeeds and recovers a stored binding, with all definitions (encoder,
parser, fold) actually evaluated. -/
theorem subscriptions_roundtrip_witness :
    ∃ s', NewSubscriptions
        (Subscriptions.save true ⟨[("telegram:123", "dev"), ("slack:C001", "prod")], none⟩).file
        = Except.ok s' ∧
      Subscriptions.Get s' "telegram:123" = some "dev" := by
  obtain ⟨s', h1, h2⟩ :=
    subscriptions_roundtrip ⟨[("telegram:123", "dev"), ("slack:C001", "prod")], none⟩
      (by unfold SubsWF; decide)
  exact ⟨s', h1, by rw [h2]; rfl⟩

/-- **C1.** On a platform without pre-authorisation: while unlocked
(`activated` reads the empty string, the Go map's zero value for "not yet
activated"), `Handle` produces an outbound reply exactly when the text is
the configured prefix followed by `im2code`; on that match it locks
activation to the sender, records the `onActivate` hook invocation (when
the hook is installed), and replies with the confirmation; every other
message yields no effect and leaves the router untouched.  Once locked to a
sender `s ≠ ""`, any single message — and any sequence of messages — from
different senders on that channel produces no reply and no state change. -/
theorem router_activation_gate (wk : Bool) (r : Router) (msg : InboundMessage)
    (hpre : msg.preAuthorized = false) :
    (lookupD r.activated msg.channel "" = "" →
      (msg.text ≠ r.pfx ++ "im2code" → Router.Handle wk r msg = (r, [])) ∧
      (msg.text = r.pfx ++ "im2code" →
        Router.Handle wk r msg
          = ({ r with activated := setA r.activated msg.channel msg.senderID },
             (if r.hasOnActivate then [Effect.activate msg.channel msg.senderID] else [])
               ++ [Effect.reply ⟨msg.channel, msg.chatID,
                     "Activated. Send " ++ r.pfx ++ "help to see available commands."⟩]))) ∧
    (∀ (s : String) (m : InboundMessage), s ≠ "" →
      lookupD r.activated m.channel "" = s → m.preAuthorized = false →
      m.senderID ≠ s → Router.Handle wk r m = (r, [])) ∧
    (∀ (s : String) (msgs : List InboundMessage), s ≠ "" →
      lookupD r.activated msg.channel "" = s →
      (∀ m ∈ msgs, m.preAuthorized = false ∧ m.channel = msg.channel ∧ m.senderID ≠ s) →
      Router.HandleAll wk r msgs = (r, [])) := by
  have hdrop : ∀ (s : String) (m : InboundMessage), s ≠ "" →
      lookupD r.activated m.channel "" = s → m.preAuthorized = false →
      m.senderID ≠ s → Router.Handle wk r m = (r, []) := by
    intro s m hsne hs hmpre hmid
    unfold Router.Handle
    simp only [hmpre, Bool.false_eq_true, if_false, hs]
    rw [if_neg hsne, if_pos (fun hEq => hmid hEq.symm)]
  refine ⟨?_, hdrop, ?_⟩
  · intro hu
    constructor
    · intro hne
      unfold Router.Handle
      simp only [hpre, Bool.false_eq_true, if_false, hu, if_true]
      rw [if_neg hne]
    · intro hEq
      unfold Router.Handle
      simp only [hpre, Bool.false_eq_true, if_false, hu, if_true]
      rw [if_pos hEq]
      rfl
  · intro s msgs hsne hs hall
    induction msgs with
    | nil => rfl
    | cons m rest ih =>
      have hm := hall m (by simp)
      have hHandle : Router.Handle wk r m = (r, []) :=
        hdrop s m hsne (by rw [hm.2.1]; exact hs) hm.1 hm.2.2
      unfold Router.HandleAll at ih ⊢
      simp only [List.foldl_cons, hHandle]
      exact ih (fun m' hm' => hall m' (by simp [hm']))

/-- Witness for C1: a channel locked to `alice`; a message from `bob` is
dropped with no reply and no state change. -/
theorem router_activation_gate_witness :
    Router.Handle true
      (Router.mk "#" (Subscriptions.mk [] none) none false [] [("telegram", "alice")])
      (InboundMessage.mk "telegram" "c1" "bob" "#status" false)
      = (Router.mk "#" (Subscriptions.mk [] none) none false [] [("telegram", "alice")],
         []) :=
  (router_activation_gate true
      (Router.mk "#" (Subscriptions.mk [] none) none false [] [("telegram", "alice")])
      (InboundMessage.mk "telegram" "c1" "bob" "#status" false) rfl).2.1
    "alice" (InboundMessage.mk "telegram" "c1" "bob" "#status" false)
    (by decide) rfl rfl (by decide)

/-! ### Branch-compute lemmas for `detStep` -/

theorem detStep_poll_err (d : IdleDetector) (s : DetState) (now : Nat) :
    detStep d s (DetEvent.pollTick none now) = (s, none) := rfl

theorem detStep_periodic_err (d : IdleDetector) (s : DetState) (now : Nat) :
    detStep d s (DetEvent.periodicTick none now) = (s, none) := rfl

theorem detStep_poll_change (d : IdleDetector) (s : DetState) (c : String) (now : Nat)
    (h : c ≠ s.lastContent) :
    detStep d s (DetEvent.pollTick (some c) now)
      = ({ s with lastContent := c, lastChange := some now }, none) := by
  simp only [detStep, if_pos h]

theorem detStep_poll_skip_pushed (d : IdleDetector) (s : DetState) (c : String) (now : Nat)
    (hst : s.lastContent = c) (hB : c = s.lastPushed) :
    detStep d s (DetEvent.pollTick (some c) now) = (s, none) := by
  simp only [detStep, if_neg (not_not_intro hst.symm), if_pos hB]

theorem detStep_poll_skip_nochange (d : IdleDetector) (s : DetState) (c : String) (now : Nat)
    (hst : s.lastContent = c) (hB : c ≠ s.lastPushed) (hchg : s.lastChange = none) :
    detStep d s (DetEvent.pollTick (some c) now) = (s, none) := by
  simp only [detStep, if_neg (not_not_intro hst.symm), if_neg hB, hchg]

theorem detStep_poll_skip_cooldown (d : IdleDetector) (s : DetState) (c : String)
    (now tc : Nat) (hst : s.lastContent = c) (hB : c ≠ s.lastPushed)
    (hchg : s.lastChange = some tc)
    (hcool : inCooldown d.timeout now s.lastFired = true) :
    detStep d s (DetEvent.pollTick (some c) now) = (s, none) := by
  simp only [detStep, if_neg (not_not_intro hst.symm), if_neg hB, hchg, hcool, if_true]

theorem detStep_poll_fire (d : IdleDetector) (s : DetState) (c : String)
    (now tc : Nat) (hst : s.lastContent = c) (hB : c ≠ s.lastPushed)
    (hchg : s.lastChange = some tc)
    (hcool : inCooldown d.timeout now s.lastFired = false)
    (hD : now - tc > d.timeout ∨ d.promptMatcher.Match c = true) :
    detStep d s (DetEvent.pollTick (some c) now)
      = ({ s with lastPushed := c, lastFired := some now }, some c) := by
  simp only [detStep, if_neg (not_not_intro hst.symm), if_neg hB, hchg, hcool,
    Bool.false_eq_true, if_false]
  rw [if_pos hD]

theorem detStep_poll_wait (d : IdleDetector) (s : DetState) (c : String)
    (now tc : Nat) (hst : s.lastContent = c) (hB : c ≠ s.lastPushed)
    (hchg : s.lastChange = some tc)
    (hcool : inCooldown d.timeout now s.lastFired = false)
    (hD : ¬ (now - tc > d.timeout ∨ d.promptMatcher.Match c = true)) :
    detStep d s (DetEvent.pollTick (some c) now) = (s, none) := by
  simp only [detStep, if_neg (not_not_intro hst.symm), if_neg hB, hchg, hcool,
    Bool.false_eq_true, if_false]
  rw [if_neg (by
    intro h
    rcases h with h | h
    · exact hD (Or.inl h)
    · exact hD (Or.inr (by simpa using h)))]

theorem detStep_periodic_push (d : IdleDetector) (s : DetState) (c : String) (now : Nat)
    (h : c ≠ s.lastPushed) :
    detStep d s (DetEvent.periodicTick (some c) now)
      = ({ s with lastPushed := c, lastFired := some now }, some c) := by
  simp only [detStep, if_pos h]

theorem detStep_periodic_skip (d : IdleDetector) (s : DetState) (c : String) (now : Nat)
    (h : c = s.lastPushed) :
    detStep d s (DetEvent.periodicTick (some c) now) = (s, none) := by
  simp only [detStep, if_neg (not_not_intro h)]

/-- From a state whose last push was `c`, no event of a period during which
the content stays `c` ever pushes again, on either path. -/
theorem detStep_after_push (d : IdleDetector) (s : DetState) (e : DetEvent)
    (c : String) (hp : s.lastPushed = c) (he : capturesOnly c e) :
    (detStep d s e).2 = none ∧ (detStep d s e).1.lastPushed = c := by
  cases e with
  | pollTick cap now =>
    rcases he with hcap | hcap <;> subst hcap
    · by_cases hch : c ≠ s.lastContent
      · rw [detStep_poll_change d s c now hch]
        exact ⟨rfl, hp⟩
      · rw [detStep_poll_skip_pushed d s c now (not_not.mp hch).symm hp.symm]
        exact ⟨rfl, hp⟩
    · rw [detStep_poll_err]
      exact ⟨rfl, hp⟩
  | periodicTick cap now =>
    rcases he with hcap | hcap <;> subst hcap
    · rw [detStep_periodic_skip d s c now hp.symm]
      exact ⟨rfl, hp⟩
    · rw [detStep_periodic_err]
      exact ⟨rfl, hp⟩

theorem runDet_after_push (d : IdleDetector) (c : String) :
    ∀ (es : List DetEvent) (s : DetState), s.lastPushed = c →
      (∀ e ∈ es, capturesOnly c e) →
      (runDet d s es).2 = [] ∧ (runDet d s es).1.lastPushed = c := by
  intro es
  induction es with
  | nil =>
    intro s hp _
    exact ⟨rfl, hp⟩
  | cons e rest ih =>
    intro s hp hall
    have hstep := detStep_after_push d s e c hp (hall e (by simp))
    have hrest := ih (detStep d s e).1 hstep.2 (fun e' he' => hall e' (by simp [he']))
    refine ⟨?_, ?_⟩
    · simp [runDet, hstep.1, hrest.1]
    · simp only [runDet]
      exact hrest.2

/-- Any single step on content `c` either pushes exactly `c` (and records
it as last-pushed) or pushes nothing and leaves last-pushed alone. -/
theorem detStep_cases (d : IdleDetector) (s : DetState) (e : DetEvent)
    (c : String) (he : capturesOnly c e) :
    ((detStep d s e).2 = none ∧ (detStep d s e).1.lastPushed = s.lastPushed) ∨
    ((detStep d s e).2 = some c ∧ (detStep d s e).1.lastPushed = c) := by
  cases e with
  | pollTick cap now =>
    rcases he with hcap | hcap <;> subst hcap
    · by_cases hch : c ≠ s.lastContent
      · exact Or.inl (by rw [detStep_poll_change d s c now hch]; exact ⟨rfl, rfl⟩)
      · have hst : s.lastContent = c := (not_not.mp hch).symm
        by_cases hB : c = s.lastPushed
        · exact Or.inl (by rw [detStep_poll_skip_pushed d s c now hst hB]; exact ⟨rfl, rfl⟩)
        · cases hchg : s.lastChange with
          | none =>
            exact Or.inl
              (by rw [detStep_poll_skip_nochange d s c now hst hB hchg]; exact ⟨rfl, rfl⟩)
          | some tc =>
            cases hcool : inCooldown d.timeout now s.lastFired with
            | true =>
              exact Or.inl
                (by rw [detStep_poll_skip_cooldown d s c now tc hst hB hchg hcool]
                    exact ⟨rfl, rfl⟩)
            | false =>
              by_cases hD : now - tc > d.timeout ∨ d.promptMatcher.Match c = true
              · exact Or.inr
                  (by rw [detStep_poll_fire d s c now tc hst hB hchg hcool hD]
                      exact ⟨rfl, rfl⟩)
              · exact Or.inl
                  (by rw [detStep_poll_wait d s c now tc hst hB hchg hcool hD]
                      exact ⟨rfl, rfl⟩)
    · exact Or.inl (by rw [detStep_poll_err]; exact ⟨rfl, rfl⟩)
  | periodicTick cap now =>
    rcases he with hcap | hcap <;> subst hcap
    · by_cases hB : c = s.lastPushed
      · exact Or.inl (by rw [detStep_periodic_skip d s c now hB]; exact ⟨rfl, rfl⟩)
      · exact Or.inr (by rw [detStep_periodic_push d s c now hB]; exact ⟨rfl, rfl⟩)
    · exact Or.inl (by rw [detStep_periodic_err]; exact ⟨rfl, rfl⟩)

/-- As long as the content stays `c`, the whole run pushes nothing, or
pushes `c` exactly once. -/
theorem runDet_pushes_sub (d : IdleDetector) (c : String) :
    ∀ (es : List DetEvent) (s : DetState), s.lastPushed ≠ c →
      (∀ e ∈ es, capturesOnly c e) →
      (runDet d s es).2 = [] ∨ (runDet d s es).2 = [c] := by
  intro es
  induction es with
  | nil => intro s _ _; exact Or.inl rfl
  | cons e rest ih =>
    intro s hp hall
    rcases detStep_cases d s e c (hall e (by simp)) with ⟨hnone, hkeep⟩ | ⟨hsome, hnew⟩
    · have := ih (detStep d s e).1 (hkeep ▸ hp) (fun e' he' => hall e' (by simp [he']))
      rcases this with h | h
      · exact Or.inl (by simp [runDet, hnone, h])
      · exact Or.inr (by simp [runDet, hnone, h])
    · have := runDet_after_push d c rest (detStep d s e).1 hnew
        (fun e' he' => hall e' (by simp [he']))
      exact Or.inr (by simp [runDet, hsome, this.1])

/-- During the waiting phase a fast poll either pushes, or leaves the state
literally unchanged — and in the latter case the gap since the last change
was still within the idle timeout. -/
theorem detStep_pre (d : IdleDetector) (s : DetState) (c : String) (t t0 : Nat)
    (hinv : PreInv c t0 s) :
    detStep d s (DetEvent.pollTick (some c) t)
        = ({ s with lastPushed := c, lastFired := some t }, some c)
      ∨ (detStep d s (DetEvent.pollTick (some c) t) = (s, none) ∧ t - t0 ≤ d.timeout) := by
  obtain ⟨hlc, hchg, hlp, hlf⟩ := hinv
  have hcool : inCooldown d.timeout t s.lastFired = false := by rw [hlf]; rfl
  by_cases hD : t - t0 > d.timeout ∨ d.promptMatcher.Match c = true
  · exact Or.inl (detStep_poll_fire d s c t t0 hlc (fun h => hlp h.symm) hchg hcool hD)
  · refine Or.inr ⟨detStep_poll_wait d s c t t0 hlc (fun h => hlp h.symm) hchg hcool hD, ?_⟩
    omega

/-- If some fast poll arrives more than the idle timeout after the last
change, the waiting phase cannot end pushless. -/
theorem runDet_pre_fires (d : IdleDetector) (c : String) (t0 : Nat) :
    ∀ (ts : List Nat) (s : DetState), PreInv c t0 s →
      (∃ t ∈ ts, d.timeout < t - t0) →
      (runDet d s (ts.map (fun t => DetEvent.pollTick (some c) t))).2 ≠ [] := by
  intro ts
  induction ts with
  | nil => intro s _ hex; simp at hex
  | cons t ts' ih =>
    intro s hinv hex
    rcases detStep_pre d s c t t0 hinv with hfire | ⟨hskip, hle⟩
    · simp [runDet, hfire]
    · have hex' : ∃ t' ∈ ts', d.timeout < t' - t0 := by
        rcases hex with ⟨t', ht'mem, ht'⟩
        rcases List.mem_cons.mp ht'mem with hEq | hmem
        · subst hEq; omega
        · exact ⟨t', hmem, ht'⟩
      simp only [List.map_cons, runDet, hskip]
      simpa using ih s hinv hex'

/-- **C3.** A run of the Idle Detector whose successive captures all return
the same content `c`, sustained past the idle timeout (some poll arrives
more than `timeout` after the first), emits exactly one `onIdle` push, of
that content; and from any state that has already pushed `c`, no further
event — fast poll or periodic tick, capture error included — pushes again
until the captured content changes away from `c`. -/
theorem idle_exactly_one_push (d : IdleDetector) (c : String) (t0 : Nat)
    (ts : List Nat) (hc : c ≠ "")
    (hgap : ∃ t ∈ ts, d.timeout < t - t0) :
    (runDet d initDetState
        ((t0 :: ts).map (fun t => DetEvent.pollTick (some c) t))).2 = [c] ∧
    (∀ (s : DetState) (es : List DetEvent), s.lastPushed = c →
      (∀ e ∈ es, capturesOnly c e) → (runDet d s es).2 = []) := by
  constructor
  · have hstep1 : detStep d initDetState (DetEvent.pollTick (some c) t0)
        = ({ initDetState with lastContent := c, lastChange := some t0 }, none) :=
      detStep_poll_change d initDetState c t0 (by simpa [initDetState] using hc)
    have hinv : PreInv c t0 { initDetState with lastContent := c, lastChange := some t0 } :=
      ⟨rfl, rfl, by simpa [initDetState] using (Ne.symm hc), rfl⟩
    have hne := runDet_pre_fires d c t0 ts _ hinv hgap
    have hsub := runDet_pushes_sub d c
      (ts.map (fun t => DetEvent.pollTick (some c) t)) _ hinv.2.2.1
      (by
        intro e he
        rcases List.mem_map.mp he with ⟨t, _, rfl⟩
        exact Or.inl rfl)
    rcases hsub with h | h
    · exact absurd h hne
    · simp only [List.map_cons, runDet, hstep1]
      simpa using h
  · intro s es hp hall
    exact (runDet_after_push d c es s hp hall).1

/-- Witness for C3: timeout 2, content "x" polled at times 0, 1, 5 —
exactly one push, and a pushed state stays silent on both paths. -/
theorem idle_exactly_one_push_witness :
    (runDet (IdleDetector.mk 2 50 (PromptMatcher.mk [] [])) initDetState
        ((0 :: [1, 5]).map (fun t => DetEvent.pollTick (some "x") t))).2 = ["x"] :=
  (idle_exactly_one_push (IdleDetector.mk 2 50 (PromptMatcher.mk [] [])) "x" 0 [1, 5]
      (by decide) ⟨5, by simp, by decide⟩).1

/-- **C4.** A capture `c` that is stable across two consecutive fast polls
(`lastContent = c` records the previous poll), differs from the last-pushed
content, and matches a configured shell-prompt pattern (either the
end-of-line-anchored original or the start-of-line variant, via
`PromptMatcher.Match`) is pushed at that very poll — with the cooldown
window over, and even though the idle timeout has not yet elapsed since the
last change (`now - tc ≤ timeout`). -/
theorem prompt_push_before_timeout (d : IdleDetector) (s : DetState) (c : String)
    (now tc : Nat)
    (hstable : s.lastContent = c)
    (hdiff : s.lastPushed ≠ c)
    (hchange : s.lastChange = some tc)
    (hcool : inCooldown d.timeout now s.lastFired = false)
    (hprompt : d.promptMatcher.Match c = true)
    (_hearly : now - tc ≤ d.timeout) :
    detStep d s (DetEvent.pollTick (some c) now)
      = ({ s with lastPushed := c, lastFired := some now }, some c) :=
  detStep_poll_fire d s c now tc hstable (fun h => hdiff h.symm) hchange hcool
    (Or.inr hprompt)

/-- Witness for C4: a prompt-matching capture is pushed at time 600 even
though only 500 of the 2-second (in model units) timeout has elapsed. -/
theorem prompt_push_before_timeout_witness :
    detStep (IdleDetector.mk 2000000000 50 (PromptMatcher.mk [fun l => l == "ok$"] []))
        (DetState.mk "ok$" (some 100) "" none)
        (DetEvent.pollTick (some "ok$") 600)
      = (DetState.mk "ok$" (some 100) "ok$" (some 600), some "ok$") :=
  prompt_push_before_timeout
    (IdleDetector.mk 2000000000 50 (PromptMatcher.mk [fun l => l == "ok$"] []))
    (DetState.mk "ok$" (some 100) "" none) "ok$" 600 100
    rfl (by decide) rfl rfl (by decide) (by decide)

theorem reconcile_fold_mem (w : List (String × String)) :
    ∀ (acc : List (String × Nat) × Nat) (s : String),
      s ∈ (w.foldl
          (fun (acc : List (String × Nat) × Nat) kv =>
            if acc.1.any (fun p => p.1 = kv.2) then acc
            else (acc.1 ++ [(kv.2, acc.2)], acc.2 + 1)) acc).1.map Prod.fst
        ↔ s ∈ acc.1.map Prod.fst ∨ s ∈ w.map Prod.snd := by
  induction w with
  | nil => intro acc s; simp
  | cons kv w' ih =>
    intro acc s
    simp only [List.foldl_cons]
    by_cases hany : acc.1.any (fun p => p.1 = kv.2) = true
    · rw [if_pos hany, ih]
      have hkv : kv.2 ∈ acc.1.map Prod.fst := by
        rcases List.any_eq_true.mp hany with ⟨p, hp, hpe⟩
        exact List.mem_map.mpr ⟨p, hp, by simpa using hpe⟩
      constructor
      · rintro (h | h)
        · exact Or.inl h
        · exact Or.inr (by simp [h])
      · rintro (h | h)
        · exact Or.inl h
        · rcases (by simpa using h : s = kv.2 ∨ s ∈ w'.map Prod.snd) with rfl | h'
          · exact Or.inl hkv
          · exact Or.inr h'
    · rw [if_neg hany, ih]
      simp only [List.map_append, List.map_cons, List.map_nil, List.mem_append,
        List.mem_singleton, List.mem_cons]
      constructor
      · rintro ((h | h) | h)
        · exact Or.inl h
        · exact Or.inr (Or.inl (by simpa using h))
        · exact Or.inr (Or.inr h)
      · rintro (h | h | h)
        · exact Or.inl (Or.inl h)
        · exact Or.inl (Or.inr (by simp [h]))
        · exact Or.inr h

theorem reconcile_fold_nodup (w : List (String × String)) :
    ∀ (acc : List (String × Nat) × Nat), (acc.1.map Prod.fst).Nodup →
      ((w.foldl
          (fun (acc : List (String × Nat) × Nat) kv =>
            if acc.1.any (fun p => p.1 = kv.2) then acc
            else (acc.1 ++ [(kv.2, acc.2)], acc.2 + 1)) acc).1.map Prod.fst).Nodup := by
  induction w with
  | nil => intro acc h; simpa using h
  | cons kv w' ih =>
    intro acc h
    simp only [List.foldl_cons]
    by_cases hany : acc.1.any (fun p => p.1 = kv.2) = true
    · rw [if_pos hany]; exact ih acc h
    · rw [if_neg hany]
      refine ih _ ?_
      simp only [List.map_append, List.map_cons, List.map_nil]
      rw [List.nodup_append]
      refine ⟨h, by simp, ?_⟩
      intro a ha hb
      have ha2 : a = kv.2 := by simpa using hb
      subst ha2
      rcases List.mem_map.mp ha with ⟨p, hp, hpe⟩
      exact hany (List.any_eq_true.mpr ⟨p, hp, by simpa using hpe⟩)

theorem reconcile_fold_preserve (w : List (String × String)) :
    ∀ (acc : List (String × Nat) × Nat) (p : String × Nat), p ∈ acc.1 →
      p ∈ (w.foldl
          (fun (acc : List (String × Nat) × Nat) kv =>
            if acc.1.any (fun p => p.1 = kv.2) then acc
            else (acc.1 ++ [(kv.2, acc.2)], acc.2 + 1)) acc).1 := by
  induction w with
  | nil => intro acc p h; simpa using h
  | cons kv w' ih =>
    intro acc p h
    simp only [List.foldl_cons]
    by_cases hany : acc.1.any (fun p => p.1 = kv.2) = true
    · rw [if_pos hany]; exact ih acc p h
    · rw [if_neg hany]
      exact ih _ p (List.mem_append_left _ h)

/-- **C6.** In every state of the Watch Supervisor reachable from startup,
the running Idle Detector instances have pairwise distinct session names —
at most one per session no matter how many chats watch it; and one
reconciliation tick makes the active session set exactly the snapshot's
watched-session set (a session gaining its first watcher is started, one
losing its last is cancelled), while a session that stays watched keeps its
existing instance rather than being restarted. -/
theorem watch_supervisor_dedup (snaps : List (List (String × String))) :
    ((reachWatch snaps).active.map Prod.fst).Nodup ∧
    (∀ (watched : List (String × String)) (s : String),
      s ∈ (reconcileTick (reachWatch snaps) watched).active.map Prod.fst ↔
        s ∈ watched.map Prod.snd) ∧
    (∀ (watched : List (String × String)) (p : String × Nat),
      p ∈ (reachWatch snaps).active → p.1 ∈ watched.map Prod.snd →
      p ∈ (reconcileTick (reachWatch snaps) watched).active) := by
  have hnodup : ∀ (sn : List (List (String × String))) (st : WatchState),
      (st.active.map Prod.fst).Nodup →
      ((sn.foldl reconcileTick st).active.map Prod.fst).Nodup := by
    intro sn
    induction sn with
    | nil => intro st h; simpa using h
    | cons w sn' ih =>
      intro st h
      simp only [List.foldl_cons]
      refine ih _ ?_
      unfold reconcileTick
      refine reconcile_fold_nodup w _ ?_
      have hsub : ((st.active.filter
          (fun p => (w.map Prod.snd).contains p.1)).map Prod.fst).Sublist
            (st.active.map Prod.fst) :=
        (List.filter_sublist _).map _
      exact hsub.nodup h
  have hreach := hnodup snaps ⟨[], 0⟩ (by simp)
  refine ⟨hreach, ?_, ?_⟩
  · intro watched s
    unfold reconcileTick
    rw [reconcile_fold_mem]
    constructor
    · rintro (h | h)
      · rcases List.mem_map.mp h with ⟨p, hp, rfl⟩
        have := List.of_mem_filter hp
        simpa using this
      · exact h
    · intro h
      exact Or.inr h
  · intro watched p hp hneed
    unfold reconcileTick
    refine reconcile_fold_preserve watched _ p ?_
    refine List.mem_filter.mpr ⟨hp, ?_⟩
    simpa using hneed

theorem foldl_fixed {α β : Type} (f : β → α → β) (l : List α) (b : β)
    (h : ∀ a, f b a = b) : l.foldl f b = b := by
  induction l with
  | nil => rfl
  | cons x xs ih => simp only [List.foldl_cons, h x]; exact ih

/-- **C9.** When the outbound queue is full, `Router.reply` returns
immediately with the queue unchanged and the message dropped (flag
`false`), and the idle-push fan-out likewise enqueues nothing; being total
functions of the state, neither can block its caller. -/
theorem outbound_full_queue_drops (q : OutQueue) (msg : InboundMessage)
    (text : String) (watched : List (String × String)) (sess content : String)
    (hfull : q.cap ≤ q.buf.length) :
    Router.reply q msg text = (q, false) ∧
    watchOnIdle watched sess content q = q := by
  have hsend : ∀ m, chanTrySend q m = (q, false) := by
    intro m
    unfold chanTrySend
    rw [if_neg (by omega)]
  refine ⟨hsend _, ?_⟩
  unfold watchOnIdle
  refine foldl_fixed _ _ _ ?_
  intro kv
  by_cases h : kv.2 ≠ sess
  · rw [if_pos h]
  · rw [if_neg h]
    cases h2 : splitN2 kv.1 with
    | nil => rfl
    | cons x xs =>
      cases xs with
      | nil => rfl
      | cons y ys =>
        cases ys with
        | nil => simp [hsend]
        | cons z zs => rfl

/-- Witness for C9: a zero-capacity queue is full; the reply and the
fan-out both leave it untouched. -/
theorem outbound_full_queue_drops_witness :
    Router.reply (OutQueue.mk 0 []) (InboundMessage.mk "telegram" "c" "u" "hi" false)
        "a reply" = (OutQueue.mk 0 [], false) ∧
    watchOnIdle [("telegram:c", "dev")] "dev" "captured output" (OutQueue.mk 0 [])
      = OutQueue.mk 0 [] :=
  outbound_full_queue_drops (OutQueue.mk 0 [])
    (InboundMessage.mk "telegram" "c" "u" "hi" false) "a reply"
    [("telegram:c", "dev")] "dev" "captured output" (by decide)

/-- **C8 counterexample.** A configured idle timeout of `"0s"` parses
successfully to zero and is used as-is at runtime: it is neither clamped
into 1s–3600s nor replaced by the 2s default, refuting the claim that the
idle timeout is clamped with zero falling back to a default. -/
theorem idle_timeout_not_clamped :
    runStartIdleTimeout (some 0) = 0 ∧
    ¬ (nsPerSecond ≤ runStartIdleTimeout (some 0)) ∧
    runStartIdleTimeout (some 0) ≠ 2 * nsPerSecond := by
  refine ⟨rfl, ?_, ?_⟩ <;> decide

/-- **C8 (amended).** The two periodic-push interval bounds are clamped —
`watchTimeMin` into [1s, 30s] and `watchTimeMax` into [5s, 3600s], both
within the spec's 1s–3600s — with unparseable or zero configuration
falling back to their defaults (5s, 20s); the idle timeout, however, falls
back to 2s only on a parse error and is otherwise used unclamped. -/
theorem interval_clamping (p : Option Int) (d : Int) :
    (nsPerSecond ≤ runStartWatchTimeMin p
      ∧ runStartWatchTimeMin p ≤ 30 * nsPerSecond) ∧
    (5 * nsPerSecond ≤ runStartWatchTimeMax p
      ∧ runStartWatchTimeMax p ≤ 3600 * nsPerSecond) ∧
    runStartWatchTimeMin none = 5 * nsPerSecond ∧
    runStartWatchTimeMin (some 0) = 5 * nsPerSecond ∧
    runStartWatchTimeMax none = 20 * nsPerSecond ∧
    runStartWatchTimeMax (some 0) = 20 * nsPerSecond ∧
    runStartIdleTimeout none = 2 * nsPerSecond ∧
    runStartIdleTimeout (some d) = d := by
  refine ⟨?_, ?_, by decide, by decide, by decide, by decide, rfl, rfl⟩
  · unfold runStartWatchTimeMin parseClamped nsPerSecond
    rcases p with _ | d' <;> simp only [] <;> split_ifs <;> omega
  · unfold runStartWatchTimeMax parseClamped nsPerSecond
    rcases p with _ | d' <;> simp only [] <;> split_ifs <;> omega

/-- **C7.** With no arguments, `setivl` leaves the intervals unchanged and
replies with the current values; with a parseable `<min>,<max>` argument it
adjusts both intervals, clamped into the configured bound `[lo, hi]`, and
replies. -/
theorem setivl_spec (lo hi : Int) (cur : Int × Int)
    (parseIvl : String → Option (Int × Int)) (hlohi : lo ≤ hi) :
    handleSetivl lo hi cur [] parseIvl
        = (cur, "Current intervals: " ++ toString cur.1 ++ "," ++ toString cur.2) ∧
    (∀ (a : String) (mn mx : Int), parseIvl a = some (mn, mx) →
      lo ≤ (handleSetivl lo hi cur [a] parseIvl).1.1 ∧
      (handleSetivl lo hi cur [a] parseIvl).1.1 ≤ hi ∧
      lo ≤ (handleSetivl lo hi cur [a] parseIvl).1.2 ∧
      (handleSetivl lo hi cur [a] parseIvl).1.2 ≤ hi ∧
      (handleSetivl lo hi cur [a] parseIvl).2 ≠ "") := by
  have hc : ∀ d : Int, lo ≤ clampI d lo hi ∧ clampI d lo hi ≤ hi := by
    intro d
    unfold clampI
    split_ifs <;> omega
  refine ⟨rfl, ?_⟩
  intro a mn mx hparse
  simp only [handleSetivl, hparse]
  refine ⟨(hc mn).1, (hc mn).2, (hc mx).1, (hc mx).2, ?_⟩
  intro hEq
  have hlen := congrArg String.length hEq
  simp [String.length_append] at hlen
  exact absurd hlen.1.1.1 (by decide)

/-- Witness for C7: bound [1s, 3600s] (model units: seconds), current
intervals (5, 20); `setivl 0,99999` clamps both into the bound, and the
no-argument form reports the current values unchanged. -/
theorem setivl_spec_witness :
    handleSetivl 1 3600 (5, 20) [] (fun _ => some (0, 99999))
        = ((5, 20), "Current intervals: " ++ toString (5 : Int) ++ ","
            ++ toString (20 : Int)) ∧
    1 ≤ (handleSetivl 1 3600 (5, 20) ["0,99999"] (fun _ => some (0, 99999))).1.1 ∧
    (handleSetivl 1 3600 (5, 20) ["0,99999"] (fun _ => some (0, 99999))).1.2 ≤ 3600 := by
  have h := setivl_spec 1 3600 (5, 20) (fun _ => some (0, 99999)) (by decide)
  have h2 := h.2 "0,99999" 0 99999 rfl
  exact ⟨h.1, h2.1, h2.2.2.2.1⟩
